import Mathlib

/-!
Shallow embedding of the MazeRL core (`src/model.rs`): a tabular
Monte-Carlo maze learner on a grid of cells, each holding a list of legal
actions and a parallel list of value estimates.

Modelling conventions:
* `f64` values are modelled as exact rationals (`ℚ`); Rust's
  `f64::round` (round half away from zero) is `rustRound`.
* `usize` is modelled as `ℕ`; theorems about `world_model` carry
  hypotheses ruling out the subtractions that would underflow in Rust.
* The ambient random number generator is modelled by passing the drawn
  values (all in `[0,1)`) explicitly: `policy` receives the two draws it
  may consume, and the rollout loops receive a stream of draw pairs.
* Vector indexing is modelled with `List.getD`; the safety claims prove
  the indices in bounds, so the default is never reached on the inputs
  the program uses. For the one operation whose panics matter — the
  forward pass of `update_after_trajectory` on arbitrary, possibly
  ill-formed trajectories — a partiality-faithful variant
  (`update_after_trajectoryChecked`) models the `Vec` indexing panics as
  `none`, and its agreement with the total model is proved on the
  in-grid domain.
-/

namespace MazeRL

/-- Rust `f64::round`: nearest integer, halves rounded away from zero. -/
def rustRound (q : ℚ) : ℤ :=
  if q < 0 then -⌊-q + 1/2⌋ else ⌊q + 1/2⌋

/-- `round_to` from `model.rs`: round `value` to `decimal_places` decimal
digits (via multiply, round, divide). -/
def round_to (value : ℚ) (decimal_places : ℕ) : ℚ :=
  let multiplier : ℚ := 10 ^ decimal_places
  (rustRound (value * multiplier) : ℚ) / multiplier

/-- One iteration of the `max_index` loop: compare `x[i]` with the cached
maximum and keep the earlier index on ties (strict `>`). -/
def maxStep (x : List ℚ) (acc : ℕ × ℚ) (i : ℕ) : ℕ × ℚ :=
  if x.getD i 0 > acc.2 then (i, x.getD i 0) else acc

/-- `max_index` from `model.rs`: index of the first strictly-greatest
element, scanning left to right with initial candidate `x[0]`. -/
def max_index (x : List ℚ) : ℕ :=
  ((List.range x.length).foldl (maxStep x) (0, x.headD 0)).1

/-- `index_of` from `model.rs`: position of the first occurrence of
`target` in `list`, if any. -/
def index_of {T : Type} [DecidableEq T] (list : List T) (target : T) : Option ℕ :=
  list.findIdx? (fun x => x = target)

/-- The four cardinal moves, in the canonical declaration order
Up, Right, Down, Left. -/
inductive Action : Type where
  | Up : Action
  | Right : Action
  | Down : Action
  | Left : Action
deriving DecidableEq, Repr

/-- Per-cell record: legal actions and the parallel value estimates. -/
structure State : Type where
  actions : List Action
  action_values : List ℚ
deriving DecidableEq, Repr

/-- `State::policy`: epsilon-greedy action selection. `r1` is the first
random draw (explore-vs-exploit), `r2` the second (uniform index), both
drawn from `[0,1)` by the caller's generator. -/
def State.policy (s : State) (epsilon : ℚ) (r1 r2 : ℚ) : Action :=
  if r1 < epsilon then
    s.actions.getD (⌊r2 * (s.actions.length : ℚ)⌋).toNat Action.Up
  else
    s.actions.getD (max_index s.action_values) Action.Up

/-- A grid position `(row, column)`, zero-based. -/
abbrev Pos := ℕ × ℕ

/-- One step of an episode: position before the move, chosen action,
reward received. -/
abbrev Step := Pos × Action × ℚ

/-- The `Board` struct: grid of cell states, dimensions, start, finish,
and the mutable episode cursor `current`. -/
structure Board : Type where
  data : List (List State)
  dimensions : ℕ × ℕ
  start : Pos
  finish : Pos
  current : Pos
deriving DecidableEq, Repr

/-- Read the cell at position `p` (row `p.1`, column `p.2`); out-of-range
reads yield the empty cell (in Rust they panic — `getStateChecked` below
keeps that partiality where it matters). -/
def getState (b : Board) (p : Pos) : State :=
  (b.data.getD p.1 []).getD p.2 ⟨[], []⟩

/-- Write the cell at position `p`; out-of-range writes are dropped
(`List.set` semantics). The program only writes at a position it has
just successfully read, so the panicking access is the read, modelled by
`getStateChecked`/`updateStepChecked` below. -/
def setState (b : Board) (p : Pos) (s : State) : Board :=
  { b with data := b.data.set p.1 ((b.data.getD p.1 []).set p.2 s) }

/-- `Board::new`: build the grid. The `blocked` set is given in the
1-indexed external coordinates the Rust code tests
(`blocked.contains(&(i + 1, j + 1))`). Each non-blocked cell pushes its
legal actions in the canonical order Up, Right, Down, Left, pairing each
with an initial value estimate of `0.0`. -/
def Board.new (rows columns : ℕ) (start finish : Pos)
    (blocked : List Pos) : Board :=
  let data := (List.range rows).map (fun i =>
    (List.range columns).map (fun j =>
      if (i + 1, j + 1) ∈ blocked then
        ({ actions := [], action_values := [] } : State)
      else
        let acts : List Action :=
          (if 1 ≤ i ∧ (i, j + 1) ∉ blocked then [Action.Up] else []) ++
          (if j ≤ columns - 2 ∧ (i + 1, j + 2) ∉ blocked then [Action.Right] else []) ++
          (if i ≤ rows - 2 ∧ (i + 2, j + 1) ∉ blocked then [Action.Down] else []) ++
          (if 1 ≤ j ∧ (i + 1, j) ∉ blocked then [Action.Left] else [])
        { actions := acts, action_values := acts.map (fun _ => (0 : ℚ)) }))
  { data := data
    dimensions := (rows, columns)
    start := (start.1 - 1, start.2 - 1)
    finish := (finish.1 - 1, finish.2 - 1)
    current := (start.1 - 1, start.2 - 1) }

/-- `Board::world_model`: move the cursor one unit along the chosen
action's axis and return the reward (0 at the goal, −1 otherwise). -/
def Board.world_model (b : Board) (a : Action) : Board × ℚ :=
  let b' :=
    match a with
    | Action.Up => { b with current := (b.current.1 - 1, b.current.2) }
    | Action.Right => { b with current := (b.current.1, b.current.2 + 1) }
    | Action.Down => { b with current := (b.current.1 + 1, b.current.2) }
    | Action.Left => { b with current := (b.current.1, b.current.2 - 1) }
  (b', if b'.current = b'.finish then 0 else -1)

/-- The backward pass of `update_after_trajectory` after `n` iterations
of its `for i in 1..trajectory.len()` loop: the growing `returns`
vector, seeded with `[0.0]`; iteration `i` pushes
`round_to(returns[i-1] * discount_rate + trajectory[len-i-1].2, 5)`. -/
def returnsLoop (trajectory : List Step) (discount_rate : ℚ) : ℕ → List ℚ
  | 0 => [0]
  | n + 1 =>
    let returns := returnsLoop trajectory discount_rate n
    returns ++ [round_to (returns.getD n 0 * discount_rate +
      (trajectory.getD (trajectory.length - (n + 1) - 1) ((0, 0), Action.Up, 0)).2.2) 5]

/-- The full `returns` vector after the backward pass (the loop runs for
`i` in `1 .. trajectory.len()`). -/
def returnsOf (trajectory : List Step) (discount_rate : ℚ) : List ℚ :=
  returnsLoop trajectory discount_rate (trajectory.length - 1)

/-- The discounted return paired with step `i` by the forward update
loop: step `i` reads `returns[returns.len() - 1 - i]`. `stepReturns`
lists these values from the oldest step to the newest. -/
def stepReturns (trajectory : List Step) (discount_rate : ℚ) : List ℚ :=
  let returns := returnsOf trajectory discount_rate
  (List.range trajectory.length).map (fun i => returns.getD (returns.length - 1 - i) 0)

/-- One iteration of the forward update loop: look up the step's action
in its cell's action list; if found, nudge that value estimate toward
the step's return by `learning_rate`; otherwise leave the board
untouched. -/
def updateStep (learning_rate : ℚ) (b : Board) (sg : Step × ℚ) : Board :=
  let current_state := getState b sg.1.1
  match index_of current_state.actions sg.1.2.1 with
  | some index =>
    let v := current_state.action_values.getD index 0
    setState b sg.1.1
      { current_state with
        action_values := current_state.action_values.set index (v + (sg.2 - v) * learning_rate) }
  | none => b

/-- `Board::update_after_trajectory`: compute the discounted returns
backward, then walk the trajectory forward applying the incremental
value update at each step whose action is found in its cell. -/
def Board.update_after_trajectory (b : Board) (trajectory : List Step)
    (discount_rate learning_rate : ℚ) : Board :=
  ((trajectory.zip (stepReturns trajectory discount_rate)).foldl
    (updateStep learning_rate) b)

/-- Partiality-faithful read of `self.data[r][c]`: `none` models the
`Vec` index-out-of-bounds panic that `getState` collapses into a
default. -/
def getStateChecked (b : Board) (p : Pos) : Option State :=
  (b.data[p.1]?).bind (fun row => row[p.2]?)

/-- Partiality-faithful variant of `updateStep`: the forward update loop
indexes `self.data[r][c]` before looking at the action, and (on a found
action) indexes `action_values[index]`; both panics are modelled as
`none`. -/
def updateStepChecked (learning_rate : ℚ) (b : Board) (sg : Step × ℚ) :
    Option Board :=
  match getStateChecked b sg.1.1 with
  | none => none
  | some current_state =>
    match index_of current_state.actions sg.1.2.1 with
    | some index =>
      if index < current_state.action_values.length then
        let v := current_state.action_values.getD index 0
        some (setState b sg.1.1
          { current_state with
            action_values :=
              current_state.action_values.set index (v + (sg.2 - v) * learning_rate) })
      else none
    | none => some b

/-- The forward update loop with the panics kept: stop with `none` as
soon as a step's indexing would panic. -/
def updateLoopChecked (learning_rate : ℚ) :
    List (Step × ℚ) → Board → Option Board
  | [], b => some b
  | sg :: l, b =>
    match updateStepChecked learning_rate b sg with
    | none => none
    | some b2 => updateLoopChecked learning_rate l b2

/-- Partiality-faithful `Board::update_after_trajectory`: identical to
`Board.update_after_trajectory` except that the `Vec` indexing panics of
the forward loop surface as `none` instead of being collapsed into
default reads and dropped writes. -/
def Board.update_after_trajectoryChecked (b : Board) (trajectory : List Step)
    (discount_rate learning_rate : ℚ) : Option Board :=
  updateLoopChecked learning_rate
    (trajectory.zip (stepReturns trajectory discount_rate)) b

/-- `Board::reset`: put the cursor back on the start cell. -/
def Board.reset (b : Board) : Board :=
  { b with current := b.start }

/-- The episode-building `while` loop shared by `train`'s body: while the
cursor is off the goal and steps remain, select an action for the
current cell, apply the transition, and record
`(position-before, action, reward)`. `rand n` supplies the two draws
consumed at step `n`; the final argument is the remaining step budget
(`trajectory_limit - count`). -/
def episodeLoop (eps : ℚ) (rand : ℕ → ℚ × ℚ) (b : Board) (step : ℕ) :
    ℕ → Board × List Step
  | 0 => (b, [])
  | n + 1 =>
    if b.current = b.finish then (b, [])
    else
      let current_state := getState b b.current
      let curr := b.current
      let action := current_state.policy eps (rand step).1 (rand step).2
      let wm := b.world_model action
      let rest := episodeLoop eps rand wm.1 (step + 1) n
      (rest.1, (curr, action, wm.2) :: rest.2)

/-- One iteration of `Board::train`'s outer loop: build an episode, apply
the update, reset the cursor. -/
def trainEpisode (b : Board) (trajectory_limit : ℕ)
    (discount_rate learning_rate eps : ℚ) (rand : ℕ → ℚ × ℚ) : Board :=
  let run := episodeLoop eps rand b 0 trajectory_limit
  (run.1.update_after_trajectory run.2 discount_rate learning_rate).reset

/-- `Board::train`: repeat episode generation plus value update `num`
times; `rand k` is the draw stream of episode `k`. -/
def Board.train (b : Board) (num trajectory_limit : ℕ)
    (discount_rate learning_rate eps : ℚ) (rand : ℕ → ℕ → ℚ × ℚ) : Board :=
  (List.range num).foldl
    (fun b k => trainEpisode b trajectory_limit discount_rate learning_rate eps (rand k)) b

/-- The export-rollout `while` loop of `Board::trajectory`: identical
stepping, but it records `(position-before, position-after)` pairs and
never feeds the update engine. -/
def trajLoop (eps : ℚ) (rand : ℕ → ℚ × ℚ) (b : Board) (step : ℕ) :
    ℕ → Board × List (Pos × Pos)
  | 0 => (b, [])
  | n + 1 =>
    if b.current = b.finish then (b, [])
    else
      let current_state := getState b b.current
      let curr := b.current
      let action := current_state.policy eps (rand step).1 (rand step).2
      let wm := b.world_model action
      let next := wm.1.current
      let rest := trajLoop eps rand wm.1 (step + 1) n
      (rest.1, (curr, next) :: rest.2)

/-- `Board::trajectory`: run one export rollout, reset the cursor, and
return the visited position pairs. -/
def Board.trajectory (b : Board) (trajectory_limit : ℕ) (eps : ℚ)
    (rand : ℕ → ℚ × ℚ) : Board × List (Pos × Pos) :=
  let run := trajLoop eps rand b 0 trajectory_limit
  (run.1.reset, run.2)

/-- A public operation on a trained board: one `train` call or one
`trajectory` (export rollout) call, with its random stream. -/
inductive Op : Type where
  | trainOp (num trajectory_limit : ℕ) (discount_rate learning_rate eps : ℚ)
      (rand : ℕ → ℕ → ℚ × ℚ) : Op
  | exportOp (trajectory_limit : ℕ) (eps : ℚ) (rand : ℕ → ℚ × ℚ) : Op

/-- Apply one public operation to the board. -/
def applyOp (b : Board) : Op → Board
  | Op.trainOp n l d lr e r => b.train n l d lr e r
  | Op.exportOp l e r => (b.trajectory l e r).1

/-- Apply a sequence of public operations in order. -/
def applyOps (b : Board) (ops : List Op) : Board :=
  ops.foldl applyOp b

/-- The per-cell parallel-list invariant: in every row of the grid, every
cell's action list and value list have the same length. -/
def wellFormed (b : Board) : Prop :=
  ∀ row ∈ b.data, ∀ st ∈ row, st.actions.length = st.action_values.length

instance (b : Board) : Decidable (wellFormed b) := by
  unfold wellFormed; infer_instance

/-! ### Lemmas about the backward returns pass -/

theorem length_returnsLoop (t : List Step) (d : ℚ) :
    ∀ n, (returnsLoop t d n).length = n + 1
  | 0 => rfl
  | n + 1 => by simp [returnsLoop, length_returnsLoop t d n]

theorem returnsLoop_getD_zero (t : List Step) (d : ℚ) :
    ∀ n, (returnsLoop t d n).getD 0 0 = 0
  | 0 => rfl
  | n + 1 => by
    simp only [returnsLoop]
    rw [List.getD_append _ _ _ 0 (by simp [length_returnsLoop])]
    exact returnsLoop_getD_zero t d n

theorem returnsLoop_getD_le (t : List Step) (d : ℚ) {m n : ℕ} (h : m ≤ n) :
    (returnsLoop t d n).getD m 0 = (returnsLoop t d m).getD m 0 := by
  induction n with
  | zero =>
    have hm : m = 0 := by omega
    subst hm; rfl
  | succ n ih =>
    rcases Nat.lt_or_ge m (n + 1) with h1 | h2
    · simp only [returnsLoop]
      rw [List.getD_append _ _ _ m (by simp [length_returnsLoop]; omega)]
      exact ih (by omega)
    · have hm : m = n + 1 := by omega
      subst hm; rfl

theorem returnsLoop_getD_succ (t : List Step) (d : ℚ) (n : ℕ) :
    (returnsLoop t d (n + 1)).getD (n + 1) 0 =
      round_to ((returnsLoop t d n).getD n 0 * d +
        (t.getD (t.length - (n + 1) - 1) ((0, 0), Action.Up, 0)).2.2) 5 := by
  simp only [returnsLoop]
  rw [List.getD_append_right _ _ _ _ (by simp [length_returnsLoop])]
  simp [length_returnsLoop]

theorem length_returnsOf (t : List Step) (d : ℚ) :
    (returnsOf t d).length = t.length - 1 + 1 :=
  length_returnsLoop t d _

theorem stepReturns_getD (t : List Step) (d : ℚ) {k : ℕ} (hk : k < t.length) :
    (stepReturns t d).getD k 0 =
      (returnsOf t d).getD ((returnsOf t d).length - 1 - k) 0 := by
  unfold stepReturns
  rw [List.getD_eq_getElem _ _ (by simpa using hk)]
  simp [List.getElem_map, List.getElem_range]

theorem stepReturns_getD_last (t : List Step) (d : ℚ) (h : 1 ≤ t.length) :
    (stepReturns t d).getD (t.length - 1) 0 = 0 := by
  rw [stepReturns_getD t d (by omega), length_returnsOf]
  have : t.length - 1 + 1 - 1 - (t.length - 1) = 0 := by omega
  rw [this]
  exact returnsLoop_getD_zero t d _

theorem stepReturns_getD_rec (t : List Step) (d : ℚ) {k : ℕ} (hk : k + 1 < t.length) :
    (stepReturns t d).getD k 0 =
      round_to ((stepReturns t d).getD (k + 1) 0 * d +
        (t.getD k ((0, 0), Action.Up, 0)).2.2) 5 := by
  rw [stepReturns_getD t d (by omega), stepReturns_getD t d hk, length_returnsOf]
  have h1 : t.length - 1 + 1 - 1 - k = (t.length - 2 - k) + 1 := by omega
  have h2 : t.length - 1 + 1 - 1 - (k + 1) = t.length - 2 - k := by omega
  rw [h1, h2]
  unfold returnsOf
  rw [returnsLoop_getD_le t d (show t.length - 2 - k + 1 ≤ t.length - 1 by omega),
    returnsLoop_getD_succ t d (t.length - 2 - k),
    returnsLoop_getD_le t d (show t.length - 2 - k ≤ t.length - 1 by omega)]
  have h3 : t.length - (t.length - 2 - k + 1) - 1 = k := by omega
  rw [h3]

/-! ### Lemmas about the max-index scan -/

theorem headD_eq_getD {α : Type} (l : List α) (d : α) : l.headD d = l.getD 0 d := by
  cases l <;> rfl

/-- The accumulator of the `max_index` loop after scanning the first `n`
indices. -/
def maxAccum (x : List ℚ) (n : ℕ) : ℕ × ℚ :=
  (List.range n).foldl (maxStep x) (0, x.headD 0)

theorem max_index_eq_maxAccum (x : List ℚ) :
    max_index x = (maxAccum x x.length).1 := rfl

theorem maxAccum_succ (x : List ℚ) (n : ℕ) :
    maxAccum x (n + 1) = maxStep x (maxAccum x n) n := by
  simp [maxAccum, List.range_succ]

theorem maxAccum_spec (x : List ℚ) (n : ℕ) :
    (maxAccum x n).2 = x.getD (maxAccum x n).1 0 ∧
    ((maxAccum x n).1 = 0 ∨ (maxAccum x n).1 < n) ∧
    (∀ k < n, x.getD k 0 ≤ (maxAccum x n).2) ∧
    (∀ k < (maxAccum x n).1, x.getD k 0 < (maxAccum x n).2) := by
  induction n with
  | zero =>
    refine ⟨(headD_eq_getD x 0).symm ▸ rfl, Or.inl rfl, ?_, ?_⟩ <;>
      · intro k hk
        simp only [maxAccum, List.range_zero, List.foldl_nil] at hk ⊢
        omega
  | succ n ih =>
    obtain ⟨ih1, ih2, ih3, ih4⟩ := ih
    rw [maxAccum_succ]
    unfold maxStep
    by_cases h : x.getD n 0 > (maxAccum x n).2
    · rw [if_pos h]
      refine ⟨rfl, Or.inr (by omega), ?_, ?_⟩
      · intro k hk
        rcases Nat.lt_or_ge k n with hk' | hk'
        · exact le_of_lt (lt_of_le_of_lt (ih3 k hk') h)
        · have : k = n := by omega
          subst this; exact le_refl _
      · intro k hk
        exact lt_of_le_of_lt (ih3 k hk) h
    · rw [if_neg h]
      refine ⟨ih1, by omega, ?_, ih4⟩
      intro k hk
      rcases Nat.lt_or_ge k n with hk' | hk'
      · exact ih3 k hk'
      · have : k = n := by omega
        subst this; exact le_of_not_lt h

theorem max_index_lt_length (x : List ℚ) (hx : x ≠ []) :
    max_index x < x.length := by
  have hpos : 0 < x.length := List.length_pos.2 hx
  rw [max_index_eq_maxAccum]
  rcases (maxAccum_spec x x.length).2.1 with h | h
  · omega
  · exact h

theorem max_index_getD_le (x : List ℚ) :
    ∀ k < x.length, x.getD k 0 ≤ x.getD (max_index x) 0 := by
  intro k hk
  have h := maxAccum_spec x x.length
  rw [max_index_eq_maxAccum, ← h.1]
  exact h.2.2.1 k hk

theorem max_index_getD_lt (x : List ℚ) :
    ∀ k < max_index x, x.getD k 0 < x.getD (max_index x) 0 := by
  intro k hk
  have h := maxAccum_spec x x.length
  rw [max_index_eq_maxAccum, ← h.1]
  exact h.2.2.2 k (by rwa [max_index_eq_maxAccum] at hk)

/-! ### Concrete episodes used by the claims -/

/-- A four-step episode with rewards `[-1, -1, -1, 0]` on the 2×2 open
board: Right, Left, Down, then Right into the goal. -/
def trajWalk : List Step :=
  [((0, 0), Action.Right, -1), ((0, 1), Action.Left, -1),
   ((0, 0), Action.Down, -1), ((1, 0), Action.Right, 0)]

/-- A one-step episode truncated by the step cap: its only (and last)
step has reward `-1`. -/
def trajOne : List Step :=
  [((0, 0), Action.Up, (-1 : ℚ))]

/-- A two-step episode whose first reward is `-1` and whose last step
reaches the goal with reward `0`. -/
def trajTwo : List Step :=
  [((0, 0), Action.Up, (-1 : ℚ)), ((0, 1), Action.Right, 0)]

/-! ### C1: the backward returns pass -/

/-- C1 (counterexample): the claim says the return assigned to the last
step equals that step's own reward. On the one-step, step-cap-truncated
episode `trajOne` (its only step has reward `-1`), the backward pass
assigns the last step the seeded return `0.0`, not `-1`: the loop
`for i in 1..len` never reads `trajectory[len - 1].2`. -/
theorem C1_last_return_counterexample :
    (stepReturns trajOne 1).getD (trajOne.length - 1) 0 ≠
      (trajOne.getD (trajOne.length - 1) ((0, 0), Action.Up, 0)).2.2 := by
  norm_num [trajOne, stepReturns, returnsOf, returnsLoop]

/-- C1 (amended): for every episode of length `L ≥ 1` and every
discount rate, the returns computed by `update_after_trajectory`
satisfy: the return of the last step equals `0.0` (the last step's own
reward is never read; the two coincide exactly when the episode ended at
the goal, whose reward is `0`), and for every earlier step `k` the
return equals `reward_k + discount_rate × return_{k+1}`, rounded to 5
decimal places. -/
theorem C1_returns_backward_pass (t : List Step) (d : ℚ) (k : ℕ)
    (hk : k < t.length) :
    (k = t.length - 1 → (stepReturns t d).getD k 0 = 0) ∧
    (k + 1 < t.length →
      (stepReturns t d).getD k 0 =
        round_to ((stepReturns t d).getD (k + 1) 0 * d +
          (t.getD k ((0, 0), Action.Up, 0)).2.2) 5) := by
  constructor
  · intro hlast
    subst hlast
    exact stepReturns_getD_last t d (by omega)
  · intro hrec
    exact stepReturns_getD_rec t d hrec

/-- Witness for C1: the amended statement instantiated on the concrete
two-step episode `trajTwo` with discount rate 1, at the last step
(return `0`) and at the first step (the rounded recurrence). -/
theorem C1_returns_backward_pass_witness :
    ((stepReturns trajTwo 1).getD 1 0 = 0) ∧
    ((stepReturns trajTwo 1).getD 0 0 =
      round_to ((stepReturns trajTwo 1).getD 1 0 * 1 +
        (trajTwo.getD 0 ((0, 0), Action.Up, 0)).2.2) 5) :=
  ⟨(C1_returns_backward_pass trajTwo 1 1 (by decide)).1 (by decide),
   (C1_returns_backward_pass trajTwo 1 0 (by decide)).2 (by decide)⟩

/-! ### C2: the worked return example -/

/-- C2: for the episode `trajWalk`, whose step rewards in visit order are
`[-1, -1, -1, 0]`, with discount rate `1.0`, the returns computed by
`update_after_trajectory` and paired with the steps from oldest to
newest are exactly `[-3, -2, -1, 0]`; applying the update on the 2×2
open board with learning rate 1 writes exactly those returns into the
visited cells' value slots. -/
theorem C2_returns_example :
    stepReturns trajWalk 1 = [-3, -2, -1, 0] ∧
    (getState ((Board.new 2 2 (1, 1) (2, 2) []).update_after_trajectory
        trajWalk 1 1) (0, 0)).action_values = [-3, -1] ∧
    (getState ((Board.new 2 2 (1, 1) (2, 2) []).update_after_trajectory
        trajWalk 1 1) (0, 1)).action_values = [0, -2] := by
  refine ⟨?_, ?_, ?_⟩ <;>
    norm_num +decide [trajWalk, Board.update_after_trajectory, stepReturns,
      returnsOf, returnsLoop, round_to, rustRound, List.range_succ, Board.new,
      getState, setState, updateStep, index_of, List.findIdx?, List.replicate,
      List.set]

/-! ### C3: the greedy (epsilon = 0) policy -/

/-- C3: with `epsilon = 0.0` the policy is deterministic — the random
draws (both in `[0, 1)`, hence nonnegative) never select the exploration
branch — and it returns the legal action at the index `m` whose value
estimate is maximal, with every earlier index holding a strictly smaller
value (so ties go to the lowest index; since construction pushes actions
in the canonical order Up, Right, Down, Left, the lowest index is the
first maximal-valued legal action in that scan order). -/
theorem C3_greedy_policy (s : State) (r1 r2 r1' r2' : ℚ)
    (hne : s.actions ≠ []) (hlen : s.actions.length = s.action_values.length)
    (h1 : 0 ≤ r1) (h1' : 0 ≤ r1') :
    s.policy 0 r1 r2 = s.policy 0 r1' r2' ∧
    ∃ m, m < s.actions.length ∧ s.policy 0 r1 r2 = s.actions.getD m Action.Up ∧
      (∀ k < s.action_values.length,
        s.action_values.getD k 0 ≤ s.action_values.getD m 0) ∧
      (∀ k < m, s.action_values.getD k 0 < s.action_values.getD m 0) := by
  have hvne : s.action_values ≠ [] := by
    intro h
    rw [h] at hlen
    exact hne (List.eq_nil_of_length_eq_zero hlen)
  unfold State.policy
  rw [if_neg (not_lt.2 h1), if_neg (not_lt.2 h1')]
  exact ⟨rfl, max_index s.action_values,
    hlen ▸ max_index_lt_length _ hvne, rfl,
    max_index_getD_le _, max_index_getD_lt _⟩

/-- Witness for C3: the greedy policy on a two-action cell whose second
value estimate is the strict maximum, under two different draw pairs. -/
theorem C3_greedy_policy_witness :
    (State.policy ⟨[Action.Up, Action.Right], [0, 1]⟩ 0 0 (1/2) =
      State.policy ⟨[Action.Up, Action.Right], [0, 1]⟩ 0 (1/2) 0) ∧
    ∃ m, m < ([Action.Up, Action.Right] : List Action).length ∧
      State.policy ⟨[Action.Up, Action.Right], [0, 1]⟩ 0 0 (1/2) =
        ([Action.Up, Action.Right] : List Action).getD m Action.Up ∧
      (∀ k < ([(0 : ℚ), 1] : List ℚ).length,
        ([(0 : ℚ), 1] : List ℚ).getD k 0 ≤ ([(0 : ℚ), 1] : List ℚ).getD m 0) ∧
      (∀ k < m, ([(0 : ℚ), 1] : List ℚ).getD k 0 < ([(0 : ℚ), 1] : List ℚ).getD m 0) :=
  C3_greedy_policy ⟨[Action.Up, Action.Right], [0, 1]⟩ 0 (1/2) (1/2) 0
    (by decide) (by decide) (by norm_num) (by norm_num)

/-! ### C9: the policy stays in bounds -/

/-- C9: on a cell with at least one legal action (and index-aligned value
estimates), for every epsilon and random draws in `[0, 1)`, both indices
the policy can use are in bounds — the exploration index
`⌊r2 · length⌋` and the exploitation index `max_index` — and the
returned action is a member of the cell's legal-action list. -/
theorem C9_policy_safe (s : State) (epsilon r1 r2 : ℚ)
    (hne : s.actions ≠ []) (hlen : s.actions.length = s.action_values.length)
    (h2a : 0 ≤ r2) (h2b : r2 < 1) :
    (⌊r2 * (s.actions.length : ℚ)⌋).toNat < s.actions.length ∧
    max_index s.action_values < s.actions.length ∧
    s.policy epsilon r1 r2 ∈ s.actions := by
  have hpos : 0 < s.actions.length := List.length_pos.2 hne
  have hvne : s.action_values ≠ [] := by
    intro h
    rw [h] at hlen
    exact hne (List.eq_nil_of_length_eq_zero hlen)
  have hcast : (0 : ℚ) < (s.actions.length : ℚ) := by exact_mod_cast hpos
  have hmul : r2 * (s.actions.length : ℚ) < (s.actions.length : ℚ) := by
    calc r2 * (s.actions.length : ℚ) < 1 * (s.actions.length : ℚ) :=
          mul_lt_mul_of_pos_right h2b hcast
      _ = (s.actions.length : ℚ) := one_mul _
  have hfloor : (⌊r2 * (s.actions.length : ℚ)⌋).toNat < s.actions.length := by
    rw [Int.toNat_lt (Int.floor_nonneg.2 (by positivity))]
    exact Int.floor_lt.2 (by exact_mod_cast hmul)
  have hmax : max_index s.action_values < s.actions.length :=
    hlen ▸ max_index_lt_length _ hvne
  refine ⟨hfloor, hmax, ?_⟩
  unfold State.policy
  split
  · rw [List.getD_eq_getElem _ _ hfloor]
    exact List.getElem_mem _
  · rw [List.getD_eq_getElem _ _ hmax]
    exact List.getElem_mem _

/-- Witness for C9: bounds and membership on a two-action cell with
`epsilon = 1/2` and draws `r1 = 0`, `r2 = 3/4`. -/
theorem C9_policy_safe_witness :
    ((⌊(3/4 : ℚ) * (([Action.Up, Action.Right] : List Action).length : ℚ)⌋).toNat <
      ([Action.Up, Action.Right] : List Action).length) ∧
    max_index [(0 : ℚ), 1] < ([Action.Up, Action.Right] : List Action).length ∧
    State.policy ⟨[Action.Up, Action.Right], [0, 1]⟩ (1/2) 0 (3/4) ∈
      ([Action.Up, Action.Right] : List Action) :=
  C9_policy_safe ⟨[Action.Up, Action.Right], [0, 1]⟩ (1/2) 0 (3/4)
    (by decide) (by decide) (by norm_num) (by norm_num)

/-! ### C5: the transition function -/

/-- C5: the transition moves the cursor by exactly one unit along the
chosen action's axis (Up: row − 1; Right: col + 1; Down: row + 1;
Left: col − 1), changes no other field of the board, and returns reward
`0` exactly when the new cursor is the goal and `-1` otherwise. The
hypotheses exclude the coordinate-0 underflows that are unreachable when
the action comes from the cell's precomputed legal-action list. -/
theorem C5_transition (b : Board) (a : Action)
    (hUp : a = Action.Up → 1 ≤ b.current.1)
    (hLeft : a = Action.Left → 1 ≤ b.current.2) :
    ((b.world_model a).1.data = b.data ∧
      (b.world_model a).1.dimensions = b.dimensions ∧
      (b.world_model a).1.start = b.start ∧
      (b.world_model a).1.finish = b.finish) ∧
    (a = Action.Up → (b.world_model a).1.current.1 + 1 = b.current.1 ∧
      (b.world_model a).1.current.2 = b.current.2) ∧
    (a = Action.Right → (b.world_model a).1.current =
      (b.current.1, b.current.2 + 1)) ∧
    (a = Action.Down → (b.world_model a).1.current =
      (b.current.1 + 1, b.current.2)) ∧
    (a = Action.Left → (b.world_model a).1.current.1 = b.current.1 ∧
      (b.world_model a).1.current.2 + 1 = b.current.2) ∧
    (b.world_model a).2 =
      (if (b.world_model a).1.current = b.finish then (0 : ℚ) else -1) := by
  cases a <;> simp_all [Board.world_model]

/-- Witness for C5: an Up move from cursor `(1, 1)` on a bare board. -/
theorem C5_transition_witness :
    (((⟨[], (0, 0), (0, 0), (0, 0), (1, 1)⟩ : Board).world_model Action.Up).1.data =
        (⟨[], (0, 0), (0, 0), (0, 0), (1, 1)⟩ : Board).data ∧
      ((⟨[], (0, 0), (0, 0), (0, 0), (1, 1)⟩ : Board).world_model Action.Up).1.dimensions =
        (⟨[], (0, 0), (0, 0), (0, 0), (1, 1)⟩ : Board).dimensions ∧
      ((⟨[], (0, 0), (0, 0), (0, 0), (1, 1)⟩ : Board).world_model Action.Up).1.start =
        (⟨[], (0, 0), (0, 0), (0, 0), (1, 1)⟩ : Board).start ∧
      ((⟨[], (0, 0), (0, 0), (0, 0), (1, 1)⟩ : Board).world_model Action.Up).1.finish =
        (⟨[], (0, 0), (0, 0), (0, 0), (1, 1)⟩ : Board).finish) ∧
    (Action.Up = Action.Up →
      ((⟨[], (0, 0), (0, 0), (0, 0), (1, 1)⟩ : Board).world_model Action.Up).1.current.1 + 1 =
        (⟨[], (0, 0), (0, 0), (0, 0), (1, 1)⟩ : Board).current.1 ∧
      ((⟨[], (0, 0), (0, 0), (0, 0), (1, 1)⟩ : Board).world_model Action.Up).1.current.2 =
        (⟨[], (0, 0), (0, 0), (0, 0), (1, 1)⟩ : Board).current.2) ∧
    (Action.Up = Action.Right →
      ((⟨[], (0, 0), (0, 0), (0, 0), (1, 1)⟩ : Board).world_model Action.Up).1.current =
        ((⟨[], (0, 0), (0, 0), (0, 0), (1, 1)⟩ : Board).current.1,
          (⟨[], (0, 0), (0, 0), (0, 0), (1, 1)⟩ : Board).current.2 + 1)) ∧
    (Action.Up = Action.Down →
      ((⟨[], (0, 0), (0, 0), (0, 0), (1, 1)⟩ : Board).world_model Action.Up).1.current =
        ((⟨[], (0, 0), (0, 0), (0, 0), (1, 1)⟩ : Board).current.1 + 1,
          (⟨[], (0, 0), (0, 0), (0, 0), (1, 1)⟩ : Board).current.2)) ∧
    (Action.Up = Action.Left →
      ((⟨[], (0, 0), (0, 0), (0, 0), (1, 1)⟩ : Board).world_model Action.Up).1.current.1 =
        (⟨[], (0, 0), (0, 0), (0, 0), (1, 1)⟩ : Board).current.1 ∧
      ((⟨[], (0, 0), (0, 0), (0, 0), (1, 1)⟩ : Board).world_model Action.Up).1.current.2 + 1 =
        (⟨[], (0, 0), (0, 0), (0, 0), (1, 1)⟩ : Board).current.2) ∧
    ((⟨[], (0, 0), (0, 0), (0, 0), (1, 1)⟩ : Board).world_model Action.Up).2 =
      (if ((⟨[], (0, 0), (0, 0), (0, 0), (1, 1)⟩ : Board).world_model Action.Up).1.current =
          (⟨[], (0, 0), (0, 0), (0, 0), (1, 1)⟩ : Board).finish then (0 : ℚ) else -1) :=
  C5_transition ⟨[], (0, 0), (0, 0), (0, 0), (1, 1)⟩ Action.Up
    (fun _ => by decide) (fun h => by cases h)

/-! ### C4: construction of the legal-action lists -/

/-- Stated from the spec's words (§4.1), for comparison with the
construction in `Board.new`: action `a` is legal at the open cell
`(i, j)` exactly when its one-step neighbor cell is in bounds and not in
the blocked set (blocked positions are carried in the 1-indexed external
coordinates the code tests). -/
def legalNeighbor (rows columns : ℕ) (blocked : List Pos) (i j : ℕ) :
    Action → Bool
  | Action.Up => decide (1 ≤ i ∧ (i, j + 1) ∉ blocked)
  | Action.Right => decide (j + 1 < columns ∧ (i + 1, j + 2) ∉ blocked)
  | Action.Down => decide (i + 1 < rows ∧ (i + 2, j + 1) ∉ blocked)
  | Action.Left => decide (1 ≤ j ∧ (i + 1, j) ∉ blocked)

theorem singleton_append_ite {α : Type} (c : Prop) [Decidable c] (x : α)
    (L : List α) : (if c then [x] else []) ++ L = if c then x :: L else L := by
  by_cases h : c <;> simp [h]

theorem getState_new (rows columns : ℕ) (start finish : Pos)
    (blocked : List Pos) {i j : ℕ} (hi : i < rows) (hj : j < columns) :
    getState (Board.new rows columns start finish blocked) (i, j) =
      if (i + 1, j + 1) ∈ blocked then ⟨[], []⟩
      else
        (fun acts => (⟨acts, acts.map (fun _ => (0 : ℚ))⟩ : State))
          ((if 1 ≤ i ∧ (i, j + 1) ∉ blocked then [Action.Up] else []) ++
           (if j ≤ columns - 2 ∧ (i + 1, j + 2) ∉ blocked then [Action.Right] else []) ++
           (if i ≤ rows - 2 ∧ (i + 2, j + 1) ∉ blocked then [Action.Down] else []) ++
           (if 1 ≤ j ∧ (i + 1, j) ∉ blocked then [Action.Left] else [])) := by
  unfold getState Board.new
  simp only [List.getD_eq_getElem?_getD, List.getElem?_map,
    List.getElem?_range hi, List.getElem?_range hj, Option.map_some',
    Option.getD_some]

/-- C4: on a board with `rows, cols ≥ 2`, each open (non-blocked) cell is
constructed with exactly the legal actions whose one-step neighbor is in
bounds and not blocked, listed in the canonical order Up, Right, Down,
Left, with every value estimate initialised to `0.0`; each blocked cell
gets empty action and value lists; and an open interior cell with no
blocked neighbor has exactly 4 legal actions. -/
theorem C4_construction (rows columns : ℕ) (start finish : Pos)
    (blocked : List Pos) (i j : ℕ)
    (hrows : 2 ≤ rows) (hcols : 2 ≤ columns) (hi : i < rows) (hj : j < columns) :
    ((i + 1, j + 1) ∉ blocked →
      (getState (Board.new rows columns start finish blocked) (i, j)).actions =
        [Action.Up, Action.Right, Action.Down, Action.Left].filter
          (legalNeighbor rows columns blocked i j) ∧
      (getState (Board.new rows columns start finish blocked) (i, j)).action_values =
        List.replicate
          (getState (Board.new rows columns start finish blocked) (i, j)).actions.length
          (0 : ℚ)) ∧
    ((i + 1, j + 1) ∈ blocked →
      getState (Board.new rows columns start finish blocked) (i, j) = ⟨[], []⟩) ∧
    ((i + 1, j + 1) ∉ blocked → 1 ≤ i → i + 1 < rows → 1 ≤ j → j + 1 < columns →
      (i, j + 1) ∉ blocked → (i + 1, j + 2) ∉ blocked →
      (i + 2, j + 1) ∉ blocked → (i + 1, j) ∉ blocked →
      (getState (Board.new rows columns start finish blocked) (i, j)).actions.length = 4) := by
  have hR : (j ≤ columns - 2) ↔ (j + 1 < columns) := by omega
  have hD : (i ≤ rows - 2) ↔ (i + 1 < rows) := by omega
  have hacts : (i + 1, j + 1) ∉ blocked →
      (getState (Board.new rows columns start finish blocked) (i, j)).actions =
        [Action.Up, Action.Right, Action.Down, Action.Left].filter
          (legalNeighbor rows columns blocked i j) := by
    intro hopen
    rw [getState_new rows columns start finish blocked hi hj, if_neg hopen]
    simp only [List.filter_cons, List.filter_nil, legalNeighbor,
      decide_eq_true_iff, List.append_assoc, singleton_append_ite,
      List.append_nil, hR, hD]
    split_ifs <;> simp
  refine ⟨fun hopen => ⟨hacts hopen, ?_⟩, fun hblk => ?_, ?_⟩
  · rw [getState_new rows columns start finish blocked hi hj, if_neg hopen]
    simp [List.map_const']
  · rw [getState_new rows columns start finish blocked hi hj, if_pos hblk]
  · intro hopen h1 h2 h3 h4 n1 n2 n3 n4
    rw [hacts hopen]
    simp [legalNeighbor, h1, h2, h3, h4, n1, n2, n3, n4]

/-- Witness for C4: the centre cell of the open 3×3 board is interior
with no blocked neighbors and receives all four actions; the blocked-cell
clause is vacuous there. -/
theorem C4_construction_witness :
    (((1 + 1, 1 + 1) : Pos) ∉ ([] : List Pos) →
      (getState (Board.new 3 3 (1, 1) (3, 3) []) (1, 1)).actions =
        [Action.Up, Action.Right, Action.Down, Action.Left].filter
          (legalNeighbor 3 3 [] 1 1) ∧
      (getState (Board.new 3 3 (1, 1) (3, 3) []) (1, 1)).action_values =
        List.replicate
          (getState (Board.new 3 3 (1, 1) (3, 3) []) (1, 1)).actions.length (0 : ℚ)) ∧
    (((1 + 1, 1 + 1) : Pos) ∈ ([] : List Pos) →
      getState (Board.new 3 3 (1, 1) (3, 3) []) (1, 1) = ⟨[], []⟩) ∧
    (((1 + 1, 1 + 1) : Pos) ∉ ([] : List Pos) → 1 ≤ 1 → 1 + 1 < 3 → 1 ≤ 1 → 1 + 1 < 3 →
      ((1, 1 + 1) : Pos) ∉ ([] : List Pos) → ((1 + 1, 1 + 2) : Pos) ∉ ([] : List Pos) →
      ((1 + 2, 1 + 1) : Pos) ∉ ([] : List Pos) → ((1 + 1, 1) : Pos) ∉ ([] : List Pos) →
      (getState (Board.new 3 3 (1, 1) (3, 3) []) (1, 1)).actions.length = 4) :=
  C4_construction 3 3 (1, 1) (3, 3) [] 1 1
    (by decide) (by decide) (by decide) (by decide)

/-! ### Frame lemmas: what each operation leaves untouched -/

theorem Board.eq_of_fields {x y : Board} (h1 : x.data = y.data)
    (h2 : x.dimensions = y.dimensions) (h3 : x.start = y.start)
    (h4 : x.finish = y.finish) (h5 : x.current = y.current) : x = y := by
  cases x; cases y; simp_all

theorem getState_congr {x y : Board} (h : x.data = y.data) (p : Pos) :
    getState x p = getState y p := by
  unfold getState; rw [h]

theorem getState_setState_ne (b : Board) (q p : Pos) (s : State)
    (h : p ≠ q) : getState (setState b q s) p = getState b p := by
  obtain ⟨q1, q2⟩ := q
  obtain ⟨p1, p2⟩ := p
  unfold getState setState
  dsimp only
  by_cases h3 : q1 < b.data.length
  · by_cases h1 : q1 = p1
    · subst h1
      have h2 : q2 ≠ p2 := by
        intro h2
        exact h (by rw [h2])
      have hrow : (b.data.set q1 ((b.data.getD q1 []).set q2 s)).getD q1 [] =
          (b.data.getD q1 []).set q2 s := by
        rw [List.getD_eq_getElem _ _ (by simpa using h3)]
        exact List.getElem_set_self (by simpa using h3)
      rw [hrow]
      by_cases h4 : p2 < (b.data.getD q1 []).length
      · rw [List.getD_eq_getElem _ _ (by simpa using h4),
          List.getD_eq_getElem _ _ h4]
        exact List.getElem_set_ne (fun hq => h2 hq) _
      · rw [List.getD_eq_default _ _ (by rw [List.length_set]; omega),
          List.getD_eq_default _ _ (by omega)]
    · have hrow : (b.data.set q1 ((b.data.getD q1 []).set q2 s)).getD p1 [] =
          b.data.getD p1 [] := by
        by_cases h5 : p1 < b.data.length
        · rw [List.getD_eq_getElem _ _ (by simpa using h5),
            List.getD_eq_getElem _ _ h5]
          exact List.getElem_set_ne h1 _
        · rw [List.getD_eq_default _ _ (by rw [List.length_set]; omega),
            List.getD_eq_default _ _ (by omega)]
      rw [hrow]
  · rw [List.set_eq_of_length_le (by omega)]

theorem getState_setState_self (b : Board) (q : Pos) (s : State) :
    getState (setState b q s) q = s ∨ getState (setState b q s) q = getState b q := by
  obtain ⟨q1, q2⟩ := q
  unfold getState setState
  dsimp only
  by_cases h3 : q1 < b.data.length
  · have hrow : (b.data.set q1 ((b.data.getD q1 []).set q2 s)).getD q1 [] =
        (b.data.getD q1 []).set q2 s := by
      rw [List.getD_eq_getElem _ _ (by simpa using h3)]
      exact List.getElem_set_self (by simpa using h3)
    rw [hrow]
    by_cases h4 : q2 < (b.data.getD q1 []).length
    · left
      rw [List.getD_eq_getElem _ _ (by rw [List.length_set]; omega)]
      exact List.getElem_set_self (by rw [List.length_set]; omega)
    · right
      rw [List.getD_eq_default _ _ (by rw [List.length_set]; omega),
        List.getD_eq_default _ _ (by omega)]
  · rw [List.set_eq_of_length_le (by omega)]
    right
    rfl

theorem updateStep_getState_ne (lr : ℚ) (b : Board) (sg : Step × ℚ) (p : Pos)
    (h : p ≠ sg.1.1) : getState (updateStep lr b sg) p = getState b p := by
  unfold updateStep
  dsimp only
  split
  · exact getState_setState_ne b sg.1.1 p _ h
  · rfl

theorem updateStep_shape (lr : ℚ) (b : Board) (sg : Step × ℚ) (p : Pos) :
    (getState (updateStep lr b sg) p).actions = (getState b p).actions ∧
    (getState (updateStep lr b sg) p).action_values.length =
      (getState b p).action_values.length := by
  by_cases hp : p = sg.1.1
  · unfold updateStep
    dsimp only
    split
    · rcases getState_setState_self b sg.1.1 _ with h | h
      · rw [hp, h]
        exact ⟨rfl, List.length_set _ _ _⟩
      · rw [hp, h]
        exact ⟨rfl, rfl⟩
    · exact ⟨rfl, rfl⟩
  · rw [updateStep_getState_ne lr b sg p hp]
    exact ⟨rfl, rfl⟩

theorem updateStep_fields (lr : ℚ) (b : Board) (sg : Step × ℚ) :
    (updateStep lr b sg).dimensions = b.dimensions ∧
    (updateStep lr b sg).start = b.start ∧
    (updateStep lr b sg).finish = b.finish ∧
    (updateStep lr b sg).current = b.current := by
  unfold updateStep
  dsimp only
  split <;> exact ⟨rfl, rfl, rfl, rfl⟩

theorem foldl_updateStep_shape (lr : ℚ) (p : Pos) :
    ∀ (l : List (Step × ℚ)) (b : Board),
      (getState (l.foldl (updateStep lr) b) p).actions = (getState b p).actions ∧
      (getState (l.foldl (updateStep lr) b) p).action_values.length =
        (getState b p).action_values.length
  | [], _ => ⟨rfl, rfl⟩
  | sg :: l, b => by
    simp only [List.foldl_cons]
    obtain ⟨h1, h2⟩ := updateStep_shape lr b sg p
    obtain ⟨h3, h4⟩ := foldl_updateStep_shape lr p l (updateStep lr b sg)
    exact ⟨h3.trans h1, h4.trans h2⟩

theorem foldl_updateStep_fields (lr : ℚ) :
    ∀ (l : List (Step × ℚ)) (b : Board),
      (l.foldl (updateStep lr) b).dimensions = b.dimensions ∧
      (l.foldl (updateStep lr) b).start = b.start ∧
      (l.foldl (updateStep lr) b).finish = b.finish ∧
      (l.foldl (updateStep lr) b).current = b.current
  | [], _ => ⟨rfl, rfl, rfl, rfl⟩
  | sg :: l, b => by
    simp only [List.foldl_cons]
    obtain ⟨h1, h2, h3, h4⟩ := updateStep_fields lr b sg
    obtain ⟨h5, h6, h7, h8⟩ := foldl_updateStep_fields lr l (updateStep lr b sg)
    exact ⟨h5.trans h1, h6.trans h2, h7.trans h3, h8.trans h4⟩

theorem update_shape (b : Board) (traj : List Step) (d lr : ℚ) (p : Pos) :
    (getState (b.update_after_trajectory traj d lr) p).actions =
      (getState b p).actions ∧
    (getState (b.update_after_trajectory traj d lr) p).action_values.length =
      (getState b p).action_values.length :=
  foldl_updateStep_shape lr p _ b

theorem update_fields (b : Board) (traj : List Step) (d lr : ℚ) :
    (b.update_after_trajectory traj d lr).dimensions = b.dimensions ∧
    (b.update_after_trajectory traj d lr).start = b.start ∧
    (b.update_after_trajectory traj d lr).finish = b.finish ∧
    (b.update_after_trajectory traj d lr).current = b.current :=
  foldl_updateStep_fields lr _ b

theorem world_model_fields (b : Board) (a : Action) :
    (b.world_model a).1.data = b.data ∧
    (b.world_model a).1.dimensions = b.dimensions ∧
    (b.world_model a).1.start = b.start ∧
    (b.world_model a).1.finish = b.finish := by
  cases a <;> exact ⟨rfl, rfl, rfl, rfl⟩

theorem episodeLoop_fields (eps : ℚ) (rand : ℕ → ℚ × ℚ) :
    ∀ (n : ℕ) (b : Board) (step : ℕ),
      (episodeLoop eps rand b step n).1.data = b.data ∧
      (episodeLoop eps rand b step n).1.dimensions = b.dimensions ∧
      (episodeLoop eps rand b step n).1.start = b.start ∧
      (episodeLoop eps rand b step n).1.finish = b.finish
  | 0, _, _ => ⟨rfl, rfl, rfl, rfl⟩
  | n + 1, b, step => by
    simp only [episodeLoop]
    by_cases h : b.current = b.finish
    · rw [if_pos h]
      exact ⟨rfl, rfl, rfl, rfl⟩
    · rw [if_neg h]
      obtain ⟨h1, h2, h3, h4⟩ := world_model_fields b
        ((getState b b.current).policy eps (rand step).1 (rand step).2)
      obtain ⟨h5, h6, h7, h8⟩ := episodeLoop_fields eps rand n _ (step + 1)
      exact ⟨h5.trans h1, h6.trans h2, h7.trans h3, h8.trans h4⟩

theorem episodeLoop_length_le (eps : ℚ) (rand : ℕ → ℚ × ℚ) :
    ∀ (n : ℕ) (b : Board) (step : ℕ),
      (episodeLoop eps rand b step n).2.length ≤ n
  | 0, _, _ => Nat.le_refl 0
  | n + 1, b, step => by
    simp only [episodeLoop]
    by_cases h : b.current = b.finish
    · rw [if_pos h]
      simp
    · rw [if_neg h]
      simpa using Nat.succ_le_succ (episodeLoop_length_le eps rand n _ (step + 1))

theorem episodeLoop_early_stop (eps : ℚ) (rand : ℕ → ℚ × ℚ) :
    ∀ (n : ℕ) (b : Board) (step : ℕ),
      (episodeLoop eps rand b step n).2.length < n →
      (episodeLoop eps rand b step n).1.current = b.finish
  | 0, _, _ => by omega
  | n + 1, b, step => by
    simp only [episodeLoop]
    by_cases h : b.current = b.finish
    · rw [if_pos h]
      exact fun _ => h
    · rw [if_neg h]
      intro hlen
      simp only [List.length_cons] at hlen
      have hfin := (world_model_fields b
        ((getState b b.current).policy eps (rand step).1 (rand step).2)).2.2.2
      rw [← hfin]
      exact episodeLoop_early_stop eps rand n _ (step + 1) (by omega)

theorem trajLoop_length_le (eps : ℚ) (rand : ℕ → ℚ × ℚ) :
    ∀ (n : ℕ) (b : Board) (step : ℕ),
      (trajLoop eps rand b step n).2.length ≤ n
  | 0, _, _ => Nat.le_refl 0
  | n + 1, b, step => by
    simp only [trajLoop]
    by_cases h : b.current = b.finish
    · rw [if_pos h]
      simp
    · rw [if_neg h]
      simpa using Nat.succ_le_succ (trajLoop_length_le eps rand n _ (step + 1))

theorem trajLoop_early_stop (eps : ℚ) (rand : ℕ → ℚ × ℚ) :
    ∀ (n : ℕ) (b : Board) (step : ℕ),
      (trajLoop eps rand b step n).2.length < n →
      (trajLoop eps rand b step n).1.current = b.finish
  | 0, _, _ => by omega
  | n + 1, b, step => by
    simp only [trajLoop]
    by_cases h : b.current = b.finish
    · rw [if_pos h]
      exact fun _ => h
    · rw [if_neg h]
      intro hlen
      simp only [List.length_cons] at hlen
      have hfin := (world_model_fields b
        ((getState b b.current).policy eps (rand step).1 (rand step).2)).2.2.2
      rw [← hfin]
      exact trajLoop_early_stop eps rand n _ (step + 1) (by omega)

theorem trajLoop_fields (eps : ℚ) (rand : ℕ → ℚ × ℚ) :
    ∀ (n : ℕ) (b : Board) (step : ℕ),
      (trajLoop eps rand b step n).1.data = b.data ∧
      (trajLoop eps rand b step n).1.dimensions = b.dimensions ∧
      (trajLoop eps rand b step n).1.start = b.start ∧
      (trajLoop eps rand b step n).1.finish = b.finish
  | 0, _, _ => ⟨rfl, rfl, rfl, rfl⟩
  | n + 1, b, step => by
    simp only [trajLoop]
    by_cases h : b.current = b.finish
    · rw [if_pos h]
      exact ⟨rfl, rfl, rfl, rfl⟩
    · rw [if_neg h]
      obtain ⟨h1, h2, h3, h4⟩ := world_model_fields b
        ((getState b b.current).policy eps (rand step).1 (rand step).2)
      obtain ⟨h5, h6, h7, h8⟩ := trajLoop_fields eps rand n _ (step + 1)
      exact ⟨h5.trans h1, h6.trans h2, h7.trans h3, h8.trans h4⟩

theorem trajectory_board_eq (b : Board) (S : ℕ) (eps : ℚ)
    (rand : ℕ → ℚ × ℚ) : (b.trajectory S eps rand).1 = b.reset := by
  obtain ⟨h1, h2, h3, h4⟩ := trajLoop_fields eps rand S b 0
  exact Board.eq_of_fields h1 h2 h3 h4 h3

theorem trainEpisode_topology (b : Board) (S : ℕ) (d lr eps : ℚ)
    (rand : ℕ → ℚ × ℚ) :
    (∀ p, (getState (trainEpisode b S d lr eps rand) p).actions =
      (getState b p).actions) ∧
    (∀ p, (getState (trainEpisode b S d lr eps rand) p).action_values.length =
      (getState b p).action_values.length) ∧
    (trainEpisode b S d lr eps rand).dimensions = b.dimensions ∧
    (trainEpisode b S d lr eps rand).start = b.start ∧
    (trainEpisode b S d lr eps rand).finish = b.finish := by
  obtain ⟨h1, h2, h3, h4⟩ := episodeLoop_fields eps rand S b 0
  obtain ⟨u1, u2, u3, u4⟩ := update_fields (episodeLoop eps rand b 0 S).1
    (episodeLoop eps rand b 0 S).2 d lr
  refine ⟨fun p => ?_, fun p => ?_, u1.trans h2, u2.trans h3, u3.trans h4⟩
  · exact ((update_shape _ _ d lr p).1).trans
      (congrArg State.actions (getState_congr h1 p))
  · exact ((update_shape _ _ d lr p).2).trans
      (congrArg (fun st => st.action_values.length) (getState_congr h1 p))

theorem foldl_trainEpisode_topology (S : ℕ) (d lr eps : ℚ)
    (rand : ℕ → ℕ → ℚ × ℚ) :
    ∀ (l : List ℕ) (b : Board),
      (∀ p, (getState (l.foldl
          (fun b k => trainEpisode b S d lr eps (rand k)) b) p).actions =
        (getState b p).actions) ∧
      (∀ p, (getState (l.foldl
          (fun b k => trainEpisode b S d lr eps (rand k)) b) p).action_values.length =
        (getState b p).action_values.length) ∧
      (l.foldl (fun b k => trainEpisode b S d lr eps (rand k)) b).dimensions =
        b.dimensions ∧
      (l.foldl (fun b k => trainEpisode b S d lr eps (rand k)) b).start = b.start ∧
      (l.foldl (fun b k => trainEpisode b S d lr eps (rand k)) b).finish = b.finish
  | [], _ => ⟨fun _ => rfl, fun _ => rfl, rfl, rfl, rfl⟩
  | k :: l, b => by
    simp only [List.foldl_cons]
    obtain ⟨a1, a2, a3, a4, a5⟩ := trainEpisode_topology b S d lr eps (rand k)
    obtain ⟨c1, c2, c3, c4, c5⟩ := foldl_trainEpisode_topology S d lr eps rand l
      (trainEpisode b S d lr eps (rand k))
    exact ⟨fun p => (c1 p).trans (a1 p), fun p => (c2 p).trans (a2 p),
      c3.trans a3, c4.trans a4, c5.trans a5⟩

theorem applyOp_topology (b : Board) (op : Op) :
    (∀ p, (getState (applyOp b op) p).actions = (getState b p).actions) ∧
    (∀ p, (getState (applyOp b op) p).action_values.length =
      (getState b p).action_values.length) ∧
    (applyOp b op).dimensions = b.dimensions ∧
    (applyOp b op).start = b.start ∧
    (applyOp b op).finish = b.finish := by
  cases op with
  | trainOp num S d lr eps rand =>
    exact foldl_trainEpisode_topology S d lr eps rand (List.range num) b
  | exportOp S eps rand =>
    have h : applyOp b (Op.exportOp S eps rand) = b.reset :=
      trajectory_board_eq b S eps rand
    rw [h]
    exact ⟨fun _ => rfl, fun _ => rfl, rfl, rfl, rfl⟩

theorem applyOps_topology :
    ∀ (ops : List Op) (b : Board),
      (∀ p, (getState (applyOps b ops) p).actions = (getState b p).actions) ∧
      (∀ p, (getState (applyOps b ops) p).action_values.length =
        (getState b p).action_values.length) ∧
      (applyOps b ops).dimensions = b.dimensions ∧
      (applyOps b ops).start = b.start ∧
      (applyOps b ops).finish = b.finish
  | [], _ => ⟨fun _ => rfl, fun _ => rfl, rfl, rfl, rfl⟩
  | op :: ops, b => by
    show _ ∧ _
    simp only [applyOps, List.foldl_cons]
    obtain ⟨a1, a2, a3, a4, a5⟩ := applyOp_topology b op
    obtain ⟨c1, c2, c3, c4, c5⟩ := applyOps_topology ops (applyOp b op)
    simp only [applyOps] at c1 c2 c3 c4 c5
    exact ⟨fun p => (c1 p).trans (a1 p), fun p => (c2 p).trans (a2 p),
      c3.trans a3, c4.trans a4, c5.trans a5⟩

theorem wellFormed_iff (b : Board) :
    wellFormed b ↔ ∀ p : Pos,
      (getState b p).actions.length = (getState b p).action_values.length := by
  constructor
  · intro h p
    obtain ⟨p1, p2⟩ := p
    unfold getState
    dsimp only
    by_cases h1 : p1 < b.data.length
    · rw [List.getD_eq_getElem _ _ h1]
      by_cases h2 : p2 < (b.data[p1]).length
      · rw [List.getD_eq_getElem _ _ h2]
        exact h _ (List.getElem_mem _) _ (List.getElem_mem _)
      · rw [List.getD_eq_default _ _ (le_of_not_lt h2)]
        rfl
    · rw [List.getD_eq_default _ _ (le_of_not_lt h1)]
      rfl
  · intro h row hrow st hst
    obtain ⟨i, hi, rfl⟩ := List.mem_iff_getElem.1 hrow
    obtain ⟨j, hj, rfl⟩ := List.mem_iff_getElem.1 hst
    have hp := h (i, j)
    unfold getState at hp
    rw [List.getD_eq_getElem _ _ hi, List.getD_eq_getElem _ _ hj] at hp
    exact hp

theorem wellFormed_new (rows columns : ℕ) (start finish : Pos)
    (blocked : List Pos) :
    wellFormed (Board.new rows columns start finish blocked) := by
  intro row hrow st hst
  obtain ⟨i, hirange, rfl⟩ := List.mem_map.1 hrow
  obtain ⟨j, hjrange, rfl⟩ := List.mem_map.1 hst
  dsimp only
  split
  · rfl
  · simp

theorem applyOps_wellFormed (ops : List Op) (b : Board)
    (h : wellFormed b) : wellFormed (applyOps b ops) := by
  rw [wellFormed_iff] at h ⊢
  intro p
  obtain ⟨h1, h2, _, _, _⟩ := applyOps_topology ops b
  rw [congrArg List.length (h1 p), h2 p]
  exact h p

theorem Board_new_data_length (rows columns : ℕ) (start finish : Pos)
    (blocked : List Pos) :
    (Board.new rows columns start finish blocked).data.length = rows := by
  simp [Board.new]

theorem Board_new_row_length (rows columns : ℕ) (start finish : Pos)
    (blocked : List Pos) {i : ℕ} (h : i < rows) :
    ((Board.new rows columns start finish blocked).data.getD i []).length =
      columns := by
  unfold Board.new
  dsimp only
  rw [List.getD_eq_getElem _ _ (by simpa using h), List.getElem_map,
    List.getElem_range]
  simp

theorem getState_new_oob (rows columns : ℕ) (start finish : Pos)
    (blocked : List Pos) (q : Pos) (h : rows ≤ q.1 ∨ columns ≤ q.2) :
    getState (Board.new rows columns start finish blocked) q = ⟨[], []⟩ := by
  obtain ⟨q1, q2⟩ := q
  rcases h with h | h
  · have hrow : (Board.new rows columns start finish blocked).data.getD q1 [] = [] :=
      List.getD_eq_default _ _
        (by rw [Board_new_data_length]; exact h)
    unfold getState
    rw [hrow]
    rfl
  · by_cases h1 : q1 < rows
    · have hle : ((Board.new rows columns start finish blocked).data.getD q1 []).length ≤ q2 := by
        rw [Board_new_row_length rows columns start finish blocked h1]
        exact h
      unfold getState
      exact List.getD_eq_default _ _ hle
    · have hrow : (Board.new rows columns start finish blocked).data.getD q1 [] = [] :=
        List.getD_eq_default _ _
          (by rw [Board_new_data_length]; omega)
      unfold getState
      rw [hrow]
      rfl

/-! ### C6: rollout termination and cursor restoration -/

theorem foldl_trainEpisode_current (S : ℕ) (d lr eps : ℚ)
    (rand : ℕ → ℕ → ℚ × ℚ) :
    ∀ (l : List ℕ) (b : Board), b.current = b.start →
      (l.foldl (fun b k => trainEpisode b S d lr eps (rand k)) b).current =
        (l.foldl (fun b k => trainEpisode b S d lr eps (rand k)) b).start
  | [], _, hb => hb
  | k :: l, b, _ => by
    simp only [List.foldl_cons]
    exact foldl_trainEpisode_current S d lr eps rand l
      (trainEpisode b S d lr eps (rand k)) rfl

/-- C6: for a board whose cursor sits on the start cell, every rollout —
the export rollout `trajectory` and the episode loop inside each `train`
iteration — takes at most `S` steps (returns at most `S` recorded
entries), exits before the cap only with the cursor on the goal, and
hands the cursor back on the start cell when it completes; `train`
likewise finishes with the cursor on the start cell. -/
theorem C6_rollout_bounds (b : Board) (S num : ℕ) (d lr eps : ℚ)
    (rand rand2 : ℕ → ℚ × ℚ) (rand3 : ℕ → ℕ → ℚ × ℚ)
    (hb : b.current = b.start) :
    (b.trajectory S eps rand).2.length ≤ S ∧
    ((b.trajectory S eps rand).2.length < S →
      (trajLoop eps rand b 0 S).1.current = b.finish) ∧
    (b.trajectory S eps rand).1.current = b.start ∧
    (episodeLoop eps rand2 b 0 S).2.length ≤ S ∧
    ((episodeLoop eps rand2 b 0 S).2.length < S →
      (episodeLoop eps rand2 b 0 S).1.current = b.finish) ∧
    (trainEpisode b S d lr eps rand2).current = b.start ∧
    (b.train num S d lr eps rand3).current = (b.train num S d lr eps rand3).start := by
  refine ⟨trajLoop_length_le eps rand S b 0, trajLoop_early_stop eps rand S b 0, ?_,
    episodeLoop_length_le eps rand2 S b 0, episodeLoop_early_stop eps rand2 S b 0,
    ?_, foldl_trainEpisode_current S d lr eps rand3 (List.range num) b hb⟩
  · exact (trajLoop_fields eps rand S b 0).2.2.1
  · show ((episodeLoop eps rand2 b 0 S).1.update_after_trajectory
        (episodeLoop eps rand2 b 0 S).2 d lr).start = b.start
    exact (update_fields _ _ d lr).2.1.trans (episodeLoop_fields eps rand2 S b 0).2.2.1

/-- Witness for C6: the 2×2 open board with step cap 1 and an
all-zero draw stream. -/
theorem C6_rollout_bounds_witness :
    ((Board.new 2 2 (1, 1) (2, 2) []).trajectory 1 0 (fun _ => (0, 0))).2.length ≤ 1 ∧
    (((Board.new 2 2 (1, 1) (2, 2) []).trajectory 1 0 (fun _ => (0, 0))).2.length < 1 →
      (trajLoop 0 (fun _ => (0, 0)) (Board.new 2 2 (1, 1) (2, 2) []) 0 1).1.current =
        (Board.new 2 2 (1, 1) (2, 2) []).finish) ∧
    ((Board.new 2 2 (1, 1) (2, 2) []).trajectory 1 0 (fun _ => (0, 0))).1.current =
      (Board.new 2 2 (1, 1) (2, 2) []).start ∧
    (episodeLoop 0 (fun _ => (0, 0)) (Board.new 2 2 (1, 1) (2, 2) []) 0 1).2.length ≤ 1 ∧
    ((episodeLoop 0 (fun _ => (0, 0)) (Board.new 2 2 (1, 1) (2, 2) []) 0 1).2.length < 1 →
      (episodeLoop 0 (fun _ => (0, 0)) (Board.new 2 2 (1, 1) (2, 2) []) 0 1).1.current =
        (Board.new 2 2 (1, 1) (2, 2) []).finish) ∧
    (trainEpisode (Board.new 2 2 (1, 1) (2, 2) []) 1 1 1 0 (fun _ => (0, 0))).current =
      (Board.new 2 2 (1, 1) (2, 2) []).start ∧
    ((Board.new 2 2 (1, 1) (2, 2) []).train 1 1 1 1 0 (fun _ _ => (0, 0))).current =
      ((Board.new 2 2 (1, 1) (2, 2) []).train 1 1 1 1 0 (fun _ _ => (0, 0))).start :=
  C6_rollout_bounds (Board.new 2 2 (1, 1) (2, 2) []) 1 1 1 1 0
    (fun _ => (0, 0)) (fun _ => (0, 0)) (fun _ _ => (0, 0)) rfl

/-! ### C7: the topology is fixed after construction -/

/-- C7: after any sequence of `train` and `trajectory` calls, every
cell's legal-action list, the dimensions, the start and the goal are
exactly as before the sequence — only value estimates (and the cursor,
which every call restores) can change; moreover one `trajectory` (export
rollout) call returns the board entirely unchanged except for the cursor
reset, so it performs no learning at all. -/
theorem C7_topology_fixed (b : Board) (ops : List Op) :
    (∀ p, (getState (applyOps b ops) p).actions = (getState b p).actions) ∧
    (applyOps b ops).dimensions = b.dimensions ∧
    (applyOps b ops).start = b.start ∧
    (applyOps b ops).finish = b.finish ∧
    (∀ (S : ℕ) (eps : ℚ) (rand : ℕ → ℚ × ℚ),
      (b.trajectory S eps rand).1 = b.reset) := by
  obtain ⟨h1, _, h3, h4, h5⟩ := applyOps_topology ops b
  exact ⟨h1, h3, h4, h5, fun S eps rand => trajectory_board_eq b S eps rand⟩

/-! ### C8: the parallel-list invariant -/

/-- C8: construction establishes the parallel-list invariant — every
cell's action list and value list have the same length, and blocked
cells get the empty cell — and every sequence of `train`/`trajectory`
calls preserves it; a cell whose action list is empty (in particular a
blocked cell) still has both lists empty afterwards. -/
theorem C8_parallel_lists (rows columns : ℕ) (start finish : Pos)
    (blocked : List Pos) (b : Board) (ops : List Op) (p : Pos)
    (hwf : wellFormed b) :
    wellFormed (Board.new rows columns start finish blocked) ∧
    ((p.1 + 1, p.2 + 1) ∈ blocked →
      getState (Board.new rows columns start finish blocked) p = ⟨[], []⟩) ∧
    wellFormed (applyOps b ops) ∧
    ((getState b p).actions = [] → getState (applyOps b ops) p = ⟨[], []⟩) := by
  refine ⟨wellFormed_new rows columns start finish blocked, ?_,
    applyOps_wellFormed ops b hwf, ?_⟩
  · intro hblk
    by_cases h1 : p.1 < rows
    · by_cases h2 : p.2 < columns
      · obtain ⟨p1, p2⟩ := p
        rw [getState_new rows columns start finish blocked h1 h2, if_pos hblk]
      · exact getState_new_oob rows columns start finish blocked p (Or.inr (by omega))
    · exact getState_new_oob rows columns start finish blocked p (Or.inl (by omega))
  · intro hempty
    have h1 := (applyOps_topology ops b).1 p
    have hlen := (wellFormed_iff _).1 (applyOps_wellFormed ops b hwf) p
    have hact : (getState (applyOps b ops) p).actions = [] := h1.trans hempty
    rw [hact] at hlen
    have hval : (getState (applyOps b ops) p).action_values = [] :=
      List.eq_nil_of_length_eq_zero hlen.symm
    have heta : getState (applyOps b ops) p =
        ⟨(getState (applyOps b ops) p).actions,
         (getState (applyOps b ops) p).action_values⟩ := rfl
    rw [heta, hact, hval]

/-- Witness for C8: the 2×2 board with blocked external cell `(1, 2)`,
one export rollout, at the blocked position `(0, 1)`. -/
theorem C8_parallel_lists_witness :
    wellFormed (Board.new 2 2 (1, 1) (2, 2) [(1, 2)]) ∧
    getState (Board.new 2 2 (1, 1) (2, 2) [(1, 2)]) (0, 1) = ⟨[], []⟩ ∧
    wellFormed (applyOps (Board.new 2 2 (1, 1) (2, 2) [(1, 2)])
      [Op.exportOp 1 0 (fun _ => (0, 0))]) ∧
    getState (applyOps (Board.new 2 2 (1, 1) (2, 2) [(1, 2)])
      [Op.exportOp 1 0 (fun _ => (0, 0))]) (0, 1) = ⟨[], []⟩ :=
  have h := C8_parallel_lists 2 2 (1, 1) (2, 2) [(1, 2)]
    (Board.new 2 2 (1, 1) (2, 2) [(1, 2)])
    [Op.exportOp 1 0 (fun _ => (0, 0))] (0, 1) (by decide)
  ⟨h.1, h.2.1 (by decide), h.2.2.1, h.2.2.2 (by decide)⟩

/-! ### C10: behaviour of the update on ill-formed trajectories -/

theorem setState_data_length (b : Board) (q : Pos) (s : State) :
    (setState b q s).data.length = b.data.length :=
  List.length_set _ _ _

theorem setState_row_length (b : Board) (q : Pos) (s : State) (i : ℕ) :
    ((setState b q s).data.getD i []).length = (b.data.getD i []).length := by
  obtain ⟨q1, q2⟩ := q
  unfold setState
  dsimp only
  by_cases h3 : q1 < b.data.length
  · by_cases h1 : q1 = i
    · subst h1
      have hrow : (b.data.set q1 ((b.data.getD q1 []).set q2 s)).getD q1 [] =
          (b.data.getD q1 []).set q2 s := by
        rw [List.getD_eq_getElem _ _ (by simpa using h3)]
        exact List.getElem_set_self (by simpa using h3)
      rw [hrow, List.length_set]
    · have hrow : (b.data.set q1 ((b.data.getD q1 []).set q2 s)).getD i [] =
          b.data.getD i [] := by
        by_cases h5 : i < b.data.length
        · rw [List.getD_eq_getElem _ _ (by simpa using h5),
            List.getD_eq_getElem _ _ h5]
          exact List.getElem_set_ne h1 _
        · rw [List.getD_eq_default _ _ (by rw [List.length_set]; omega),
            List.getD_eq_default _ _ (by omega)]
      rw [hrow]
  · rw [List.set_eq_of_length_le (by omega)]

theorem updateStep_data_length (lr : ℚ) (b : Board) (sg : Step × ℚ) :
    (updateStep lr b sg).data.length = b.data.length := by
  unfold updateStep
  dsimp only
  split
  · exact setState_data_length b sg.1.1 _
  · rfl

theorem updateStep_row_length (lr : ℚ) (b : Board) (sg : Step × ℚ) (i : ℕ) :
    ((updateStep lr b sg).data.getD i []).length = (b.data.getD i []).length := by
  unfold updateStep
  dsimp only
  split
  · exact setState_row_length b sg.1.1 _ i
  · rfl

theorem updateStep_wellFormed (lr : ℚ) (b : Board) (sg : Step × ℚ)
    (hwf : wellFormed b) : wellFormed (updateStep lr b sg) := by
  rw [wellFormed_iff] at hwf ⊢
  intro p
  obtain ⟨h1, h2⟩ := updateStep_shape lr b sg p
  rw [congrArg List.length h1, h2]
  exact hwf p

theorem getStateChecked_eq (b : Board) (p : Pos) (h1 : p.1 < b.data.length)
    (h2 : p.2 < (b.data.getD p.1 []).length) :
    getStateChecked b p = some (getState b p) := by
  unfold getStateChecked getState
  rw [List.getD_eq_getElem _ _ h1] at h2 ⊢
  rw [List.getElem?_eq_getElem h1, Option.some_bind,
    List.getElem?_eq_getElem h2, List.getD_eq_getElem _ _ h2]

theorem updateStepChecked_eq (lr : ℚ) (b : Board) (sg : Step × ℚ)
    (hwf : wellFormed b) (hr : sg.1.1.1 < b.data.length)
    (hc : sg.1.1.2 < (b.data.getD sg.1.1.1 []).length) :
    updateStepChecked lr b sg = some (updateStep lr b sg) := by
  unfold updateStepChecked updateStep
  rw [getStateChecked_eq b sg.1.1 hr hc]
  dsimp only
  rcases hidx : index_of (getState b sg.1.1).actions sg.1.2.1 with _ | index
  · simp only [hidx]
  · have hlt : index < (getState b sg.1.1).action_values.length := by
      unfold index_of at hidx
      have h2 := (List.findIdx?_eq_some_iff_findIdx_eq.1 hidx).1
      have h3 := (wellFormed_iff b).1 hwf sg.1.1
      omega
    simp only [hidx, if_pos hlt]

theorem updateLoopChecked_eq (lr : ℚ) :
    ∀ (l : List (Step × ℚ)) (b : Board), wellFormed b →
      (∀ sg ∈ l, sg.1.1.1 < b.data.length ∧
        sg.1.1.2 < (b.data.getD sg.1.1.1 []).length) →
      updateLoopChecked lr l b = some (l.foldl (updateStep lr) b)
  | [], _, _, _ => rfl
  | sg :: l, b, hwf, hin => by
    simp only [updateLoopChecked, List.foldl_cons]
    rw [updateStepChecked_eq lr b sg hwf (hin sg (List.mem_cons_self _ _)).1
      (hin sg (List.mem_cons_self _ _)).2]
    exact updateLoopChecked_eq lr l (updateStep lr b sg)
      (updateStep_wellFormed lr b sg hwf)
      (fun sg' hm => by
        rw [updateStep_data_length, updateStep_row_length]
        exact hin sg' (List.mem_cons_of_mem _ hm))

theorem foldl_updateStep_miss (lr : ℚ) (p : Pos) :
    ∀ (l : List (Step × ℚ)) (b : Board),
      (∀ sg ∈ l, sg.1.1 ≠ p ∨ index_of (getState b p).actions sg.1.2.1 = none) →
      getState (l.foldl (updateStep lr) b) p = getState b p
  | [], _, _ => rfl
  | sg :: l, b, h => by
    simp only [List.foldl_cons]
    have hhead : getState (updateStep lr b sg) p = getState b p := by
      rcases h sg (List.mem_cons_self _ _) with h1 | h1
      · exact updateStep_getState_ne lr b sg p (fun hh => h1 hh.symm)
      · by_cases hp : sg.1.1 = p
        · rw [← hp] at h1
          unfold updateStep
          dsimp only
          rw [h1]
        · exact updateStep_getState_ne lr b sg p (fun hh => hp hh.symm)
    have htail := foldl_updateStep_miss lr p l (updateStep lr b sg)
      (fun sg' hm => by
        rcases h sg' (List.mem_cons_of_mem _ hm) with h1 | h1
        · exact Or.inl h1
        · exact Or.inr (by rw [hhead]; exact h1))
    exact htail.trans hhead

theorem foldl_updateStep_id (lr : ℚ) :
    ∀ (l : List (Step × ℚ)) (b : Board),
      (∀ sg ∈ l, index_of (getState b sg.1.1).actions sg.1.2.1 = none) →
      l.foldl (updateStep lr) b = b
  | [], _, _ => rfl
  | sg :: l, b, h => by
    have hhead : updateStep lr b sg = b := by
      have h1 := h sg (List.mem_cons_self _ _)
      unfold updateStep
      dsimp only
      rw [h1]
    simp only [List.foldl_cons, hhead]
    exact foldl_updateStep_id lr l b (fun sg' hm => h sg' (List.mem_cons_of_mem _ hm))

/-- C10 (counterexample): the claim asserts that `update_after_trajectory`
is total — no error, no panic — on arbitrary ill-formed trajectories, but
the forward loop indexes `self.data[r][c]` before it ever looks at the
action, so a step recorded at the out-of-grid position `(5, 5)` of the
2×2 open board panics with a `Vec` index out of bounds: the
partiality-faithful model returns `none` on that input. -/
theorem C10_totality_counterexample :
    (Board.new 2 2 (1, 1) (2, 2) []).update_after_trajectoryChecked
      [((5, 5), Action.Up, -1)] 1 1 = none := by
  decide

/-- C10 (amended): on trajectories all of whose recorded step positions
lie inside the grid, `update_after_trajectory` is total — given the
parallel-list invariant the partiality-faithful model returns `some` of
exactly what the total model computes — and a step whose action does not
occur in the recorded cell's legal-action list is silently skipped: if
every step's action is missing the whole board comes back unchanged (and
without panic), and a cell touched only by missing-action steps keeps
its state exactly; only steps whose action is found at some index update
the value at that index. A step at an out-of-grid position, by contrast,
panics before the action is looked up. -/
theorem C10_update_skips_unknown (b : Board) (traj : List Step)
    (d lr : ℚ) (p : Pos) (hwf : wellFormed b)
    (hin : ∀ s ∈ traj, s.1.1 < b.data.length ∧
      s.1.2 < (b.data.getD s.1.1 []).length) :
    b.update_after_trajectoryChecked traj d lr =
      some (b.update_after_trajectory traj d lr) ∧
    ((∀ s ∈ traj, index_of (getState b s.1).actions s.2.1 = none) →
      b.update_after_trajectoryChecked traj d lr = some b) ∧
    ((∀ s ∈ traj, s.1 ≠ p ∨ index_of (getState b p).actions s.2.1 = none) →
      getState (b.update_after_trajectory traj d lr) p = getState b p) := by
  have h1 : b.update_after_trajectoryChecked traj d lr =
      some (b.update_after_trajectory traj d lr) :=
    updateLoopChecked_eq lr _ b hwf
      (fun sg hm => hin sg.1 (List.of_mem_zip hm).1)
  refine ⟨h1, fun hall => ?_, fun hmiss => ?_⟩
  · rw [h1]
    exact congrArg some (foldl_updateStep_id lr _ b
      (fun sg hm => hall sg.1 (List.of_mem_zip hm).1))
  · exact foldl_updateStep_miss lr p _ b
      (fun sg hm => hmiss sg.1 (List.of_mem_zip hm).1)

/-- Witness for C10: on the 2×2 open board, a one-step in-grid trajectory
whose action `Up` is not legal at the corner cell `(0, 0)` runs without
panic and changes nothing. -/
theorem C10_update_skips_unknown_witness :
    (Board.new 2 2 (1, 1) (2, 2) []).update_after_trajectoryChecked
        [((0, 0), Action.Up, -1)] 1 1 =
      some ((Board.new 2 2 (1, 1) (2, 2) []).update_after_trajectory
        [((0, 0), Action.Up, -1)] 1 1) ∧
    (Board.new 2 2 (1, 1) (2, 2) []).update_after_trajectoryChecked
        [((0, 0), Action.Up, -1)] 1 1 =
      some (Board.new 2 2 (1, 1) (2, 2) []) ∧
    getState ((Board.new 2 2 (1, 1) (2, 2) []).update_after_trajectory
        [((0, 0), Action.Up, -1)] 1 1) (0, 0) =
      getState (Board.new 2 2 (1, 1) (2, 2) []) (0, 0) :=
  have h := C10_update_skips_unknown (Board.new 2 2 (1, 1) (2, 2) [])
    [((0, 0), Action.Up, -1)] 1 1 (0, 0) (by decide) (by decide)
  ⟨h.1, h.2.1 (by decide), h.2.2 (by decide)⟩

end MazeRL
